import Mathlib

/-!
Shallow embedding of the `http-negotiator` crate's negotiation core.

Sources embedded (string-based current variant plus the drafts):
* `src/lib.rs` — `parse_mime`, `extract_quality`, `mime_precision_score`,
  `matches_wildcard`, the generic `Negotiator`;
* `src/accept.rs` — `AcceptNegotiator::{new, negotiate, parse_sort_header}`;
* `src/encoding.rs`, `src/language.rs` — per-kind element/header parsers and
  negotiation;
* `src/accept/negotiator.rs` (v1 draft) and `src/v2/accept.rs` (v2 draft).

Modelling conventions:
* Rust `&str` operations `split(c)`, `trim`, `split_once(c)`, `contains(c)`
  are embedded as executable functions on `String.data` (`trim` covers the
  ASCII whitespace characters, which is what the crate's inputs use);
* `BTreeMap<String, String>` is embedded as a key-sorted association list
  (`Params`), built by an insert that replaces the value on an existing key,
  exactly like `BTreeMap::insert` via `collect`; map iteration is list order;
* `f32` quality values are embedded by `F32`: NaN / infinity with a sign bit,
  or a sign bit plus an exact decimal magnitude (ℚ).  `f32::total_cmp` is the
  induced total order (-NaN < -∞ < negatives < -0 < +0 < positives < +∞ <
  +NaN); the IEEE partial `<` / `<=` used by the drafts return false on NaN.
  Rounding of decimal literals to binary and overflow saturation are below
  the granularity of this model (all claims concern parse success/failure
  and relative order, which rounding preserves);
* `Vec::sort_by`, which Rust guarantees to be a stable sort, is embedded as
  a stable insertion sort `stableSortBy` driven by the same comparator.
-/

namespace HttpNeg

/-! ## String helpers (Rust `str` operations) -/

/-- Split a character list at every occurrence of `c` (Rust `str::split(c)`):
always returns at least one (possibly empty) group. -/
def splitChar (c : Char) : List Char → List (List Char)
  | [] => [[]]
  | x :: xs =>
    match splitChar c xs with
    | [] => [[x]]
    | g :: gs => if x = c then [] :: g :: gs else (x :: g) :: gs

/-- Rust `str::split(c)` producing strings. -/
def strSplit (s : String) (c : Char) : List String :=
  (splitChar c s.data).map (fun l => ⟨l⟩)

/-- Rejoin groups with `c` between them (used to model `split_once`). -/
def joinWithChar (c : Char) : List (List Char) → List Char
  | [] => []
  | [g] => g
  | g :: g2 :: gs => g ++ c :: joinWithChar c (g2 :: gs)

/-- Rust `str::split_once(c)`: `none` when `c` does not occur. -/
def splitOnceChar (s : String) (c : Char) : Option (String × String) :=
  match splitChar c s.data with
  | g :: g2 :: gs => some (⟨g⟩, ⟨joinWithChar c (g2 :: gs)⟩)
  | _ => none

/-- Rust `str::contains(c)`. -/
def strContainsChar (s : String) (c : Char) : Bool :=
  s.data.contains c

/-- Rust `str::trim` (ASCII whitespace). -/
def trimChars (cs : List Char) : List Char :=
  ((cs.dropWhile Char.isWhitespace).reverse.dropWhile Char.isWhitespace).reverse

/-- Rust `str::trim` on strings. -/
def trimStr (s : String) : String := ⟨trimChars s.data⟩

deriving instance DecidableEq for Except

/-! ## Error type (`src/error.rs`, current-variant set of kinds) -/

/-- The crate's closed error set.  `missingSeparator` carries the expected
separator character (`'/'` for media types, `'-'` for languages). -/
inductive Err where
  | missingSeparator (c : Char)
  | tooManyParts
  | invalidWildcard
  | invalidHeader
  | paramsNotAllowed
  | qualityNotAllowed
  | invalidQuality
deriving DecidableEq, Repr

/-! ## The `f32` quality model -/

/-- Model of an `f32` quality value: NaN / infinity with a sign, or a signed
exact decimal magnitude (`mag ≥ 0` for every value the parser produces; the
sign bit distinguishes `-0.0` from `+0.0` as `total_cmp` requires). -/
inductive F32 where
  | nan (neg : Bool)
  | inf (neg : Bool)
  | fin (neg : Bool) (mag : ℚ)
deriving DecidableEq, Repr

/-- The default quality `1.0`. -/
def F32.one : F32 := .fin false 1

/-- Rank of an `F32` in the `total_cmp` order: a class index and a value
within the class.  -NaN < -∞ < negatives < -0 < +0 < positives < +∞ < +NaN. -/
def F32.toKey : F32 → Int × ℚ
  | .nan true => (-3, 0)
  | .inf true => (-2, 0)
  | .fin true m => (-1, -m)
  | .fin false m => (1, m)
  | .inf false => (2, 0)
  | .nan false => (3, 0)

/-- Three-way comparison induced by a linear order. -/
def cmpLin {α : Type} [LinearOrder α] (a b : α) : Ordering :=
  if a < b then .lt else if b < a then .gt else .eq

/-- Embedding of `f32::total_cmp`. -/
def totalCmp (a b : F32) : Ordering :=
  (cmpLin a.toKey.1 b.toKey.1).then (cmpLin a.toKey.2 b.toKey.2)

/-- Signed value of a finite `F32` component. -/
def sval (neg : Bool) (m : ℚ) : ℚ := if neg then -m else m

/-- Embedding of the IEEE partial `<` on `f32` (false whenever NaN is
involved; `-0.0 < 0.0` is false). -/
def f32Lt : F32 → F32 → Bool
  | .nan _, _ => false
  | _, .nan _ => false
  | .inf true, .inf true => false
  | .inf true, _ => true
  | _, .inf true => false
  | .inf false, _ => false
  | .fin _ _, .inf false => true
  | .fin n1 m1, .fin n2 m2 => decide (sval n1 m1 < sval n2 m2)

/-- Embedding of the IEEE partial `<=` on `f32`. -/
def f32Le : F32 → F32 → Bool
  | .nan _, _ => false
  | _, .nan _ => false
  | .inf true, _ => true
  | _, .inf true => false
  | _, .inf false => true
  | .inf false, _ => false
  | .fin n1 m1, .fin n2 m2 => decide (sval n1 m1 ≤ sval n2 m2)

/-! ## `f32::from_str` (the grammar of `str::parse::<f32>()`) -/

/-- Strip an optional leading sign; `true` means negative. -/
def parseSigned (cs : List Char) : Bool × List Char :=
  match cs with
  | '-' :: r => (true, r)
  | '+' :: r => (false, r)
  | _ => (false, cs)

/-- Decimal digits to a natural number. -/
def digitsToNat (ds : List Char) : Nat :=
  ds.foldl (fun a c => a * 10 + (c.toNat - '0'.toNat)) 0

/-- Optional exponent suffix: empty input means exponent 0; anything other
than a complete well-formed exponent makes the whole parse fail. -/
def parseExpPart (cs : List Char) : Option Int :=
  match cs with
  | [] => some 0
  | c :: r =>
    if c = 'e' ∨ c = 'E' then
      match parseSigned r with
      | (eneg, r2) =>
        if (r2.takeWhile Char.isDigit) = [] ∨ (r2.dropWhile Char.isDigit) ≠ [] then
          none
        else
          some (if eneg then -(digitsToNat (r2.takeWhile Char.isDigit) : Int)
                else (digitsToNat (r2.takeWhile Char.isDigit) : Int))
    else none

/-- Value of a digit string scaled by a power of ten. -/
def qVal (ds : List Char) (e : Int) : ℚ :=
  if 0 ≤ e then (digitsToNat ds : ℚ) * (10 : ℚ) ^ e.toNat
  else (digitsToNat ds : ℚ) / (10 : ℚ) ^ (-e).toNat

/-- The number production `Digit+ | Digit+ '.' Digit* | Digit* '.' Digit+`
with optional exponent. -/
def parseNumber (cs : List Char) : Option ℚ :=
  match cs.dropWhile Char.isDigit with
  | '.' :: r2 =>
    if (cs.takeWhile Char.isDigit) = [] ∧ (r2.takeWhile Char.isDigit) = [] then none
    else
      (parseExpPart (r2.dropWhile Char.isDigit)).map (fun e =>
        qVal (cs.takeWhile Char.isDigit ++ r2.takeWhile Char.isDigit)
          (e - (r2.takeWhile Char.isDigit).length))
  | rest =>
    if (cs.takeWhile Char.isDigit) = [] then none
    else (parseExpPart rest).map (fun e => qVal (cs.takeWhile Char.isDigit) e)

/-- Embedding of `str::parse::<f32>()`: optional sign, then case-insensitive
`inf`/`infinity`/`nan` or a decimal number. -/
def parseF32 (s : String) : Option F32 :=
  match parseSigned s.data with
  | (neg, rest) =>
    if rest.map Char.toLower = "inf".data ∨ rest.map Char.toLower = "infinity".data then
      some (.inf neg)
    else if rest.map Char.toLower = "nan".data then some (.nan neg)
    else (parseNumber rest).map (.fin neg ·)

/-! ## Parameter maps (`BTreeMap<String, String>`) -/

/-- A media-type parameter map: key-sorted association list. -/
abbrev Params := List (String × String)

/-- `BTreeMap::insert` (replaces the value on an existing key). -/
def insertParam (k v : String) : Params → Params
  | [] => [(k, v)]
  | (k', v') :: rest =>
    if k < k' then (k, v) :: (k', v') :: rest
    else if k = k' then (k, v) :: rest
    else (k', v') :: insertParam k v rest

/-- `collect::<BTreeMap<_, _>>()` over key/value pairs in order (later
occurrences of a key overwrite earlier ones). -/
def paramsOfList (l : List (String × String)) : Params :=
  l.foldl (fun m p => insertParam p.1 p.2 m) []

/-- `BTreeMap::get`. -/
def paramsGet (m : Params) (k : String) : Option String :=
  (m.find? (fun p => p.1 = k)).map (·.2)

/-- `BTreeMap::contains_key`. -/
def paramsContains (m : Params) (k : String) : Bool :=
  (paramsGet m k).isSome

/-- `BTreeMap::remove`, dropping the entry for `k`. -/
def paramsErase (m : Params) (k : String) : Params :=
  m.filter (fun p => ¬(p.1 = k))

/-! ## Media-type parsing (`src/lib.rs::parse_mime` and friends) -/

/-- The `key=value` parameter parser used inside `parse_mime`
(`param.trim().split_once('=').ok_or(Error::InvalidHeader)`). -/
def parseParam (p : String) : Except Err (String × String) :=
  match splitOnceChar (trimStr p) '=' with
  | none => .error .invalidHeader
  | some kv => .ok kv

/-- Result-collecting map (`collect::<Result<_, _>>()`): stops at the first
error. -/
def mapE (f : α → Except Err β) : List α → Except Err (List β)
  | [] => .ok []
  | x :: xs =>
    match f x with
    | .error e => .error e
    | .ok y => (mapE f xs).map (y :: ·)

/-- `src/lib.rs::parse_mime`: split off the value before the first `;`, trim
it, split it into `main/sub`, enforce the wildcard rules (strict when
`fromHeader = false`), collect the parameters, and reject a `q` parameter on
the supported side. -/
def parseMime (mime : String) (fromHeader : Bool) :
    Except Err (String × String × Params) :=
  match strSplit mime ';' with
  | [] => .error .invalidHeader
  | left :: ps =>
    match splitOnceChar (trimStr left) '/' with
    | none => .error (.missingSeparator '/')
    | some (main, sub) =>
      if strContainsChar sub '/' then .error .tooManyParts
      else if fromHeader then
        if main = "*" ∧ sub ≠ "*" then .error .invalidWildcard
        else (mapE parseParam ps).map (fun pl => (main, sub, paramsOfList pl))
      else if main = "*" ∨ sub = "*" then .error .invalidWildcard
      else
        match mapE parseParam ps with
        | .error e => .error e
        | .ok pl =>
          if paramsContains (paramsOfList pl) "q" then .error .qualityNotAllowed
          else .ok (main, sub, paramsOfList pl)

/-- `src/lib.rs::extract_quality`: remove the `q` parameter and parse it;
`1.0` when absent; `InvalidQuality` when present but unparseable. -/
def extractQuality (p : Params) : Except Err (F32 × Params) :=
  match paramsGet p "q" with
  | none => .ok (F32.one, p)
  | some v =>
    match parseF32 v with
    | some f => .ok (f, paramsErase p "q")
    | none => .error .invalidQuality

/-- `src/lib.rs::mime_precision_score`: 0 for `*/*`, 1 for `specific/*`,
2 otherwise. -/
def mimePrecisionScore (main sub : String) : Nat :=
  if main = "*" ∧ sub = "*" then 0
  else if sub = "*" then 1
  else 2

/-- `src/lib.rs::matches_wildcard`. -/
def matchesWildcard (specific maybeWildcard : String) : Bool :=
  specific = maybeWildcard ∨ maybeWildcard = "*"

/-! ## Stable sort (Rust `Vec::sort_by`, which is guaranteed stable) -/

/-- Insert `x` after every element comparing `gt` against it, before the
first other element; the stable insertion step. -/
def insertOrd (c : α → α → Ordering) (x : α) : List α → List α
  | [] => [x]
  | y :: ys => if c x y = .gt then y :: insertOrd c x ys else x :: y :: ys

/-- Stable sort by a three-way comparator: the unique permutation that is
non-decreasing for the comparator and keeps tied elements in input order —
the contract of Rust's `sort_by`. -/
def stableSortBy (c : α → α → Ordering) (l : List α) : List α :=
  l.foldr (insertOrd c) []

/-! ## The `Accept` negotiator (`src/accept.rs`) -/

/-- One parsed header entry: `(main, sub, params, q)`. -/
abbrev HeaderEntry := String × String × Params × F32

/-- One stored supported entry: `(main, sub, params, original value)`. -/
abbrev SupEntry := String × String × Params × String

/-- The per-entry closure of `AcceptNegotiator::parse_sort_header`:
`parse_mime(m.trim(), true)` then `extract_quality`. -/
def parseHeaderEntryCT (m : String) : Except Err HeaderEntry :=
  match parseMime (trimStr m) true with
  | .error e => .error e
  | .ok (main, sub, p) =>
    match extractQuality p with
    | .error e => .error e
    | .ok (q, p2) => .ok (main, sub, p2, q)

/-- The comparator of `AcceptNegotiator::parse_sort_header`: quality by
`total_cmp`, then precision score, then parameter count, all reversed. -/
def cmpAccept (a b : HeaderEntry) : Ordering :=
  (((totalCmp a.2.2.2 b.2.2.2).then
      (cmpLin (mimePrecisionScore a.1 a.2.1) (mimePrecisionScore b.1 b.2.1))).then
    (cmpLin a.2.2.1.length b.2.2.1.length)).swap

/-- `AcceptNegotiator::parse_sort_header`: split on `,`, parse every entry,
stable-sort by the composite descending priority. -/
def parseSortHeaderAccept (header : String) : Except Err (List HeaderEntry) :=
  (mapE parseHeaderEntryCT (strSplit header ',')).map (stableSortBy cmpAccept)

/-- The match condition inside `AcceptNegotiator::negotiate`: wildcard-aware
main/sub comparison plus exact parameter-map equality. -/
def isMatchCT (s : SupEntry) (e : HeaderEntry) : Bool :=
  matchesWildcard s.1 e.1 && matchesWildcard s.2.1 e.2.1 &&
    decide (s.2.2.1 = e.2.2.1)

/-- The inner loop of `negotiate`: scan supported entries in registration
order, return the first matching stored value. -/
def scanSupported (sup : List SupEntry) (e : HeaderEntry) : Option String :=
  match sup with
  | [] => none
  | s :: rest => if isMatchCT s e then some s.2.2.2 else scanSupported rest e

/-- The outer loop of `negotiate`: walk sorted entries, short-circuit on the
first entry that matches some supported value. -/
def negotiateEntries (entries : List HeaderEntry) (sup : List SupEntry) :
    Option String :=
  match entries with
  | [] => none
  | e :: rest =>
    match scanSupported sup e with
    | some v => some v
    | none => negotiateEntries rest sup

/-- `AcceptNegotiator::negotiate`. -/
def acceptNegotiate (sup : List SupEntry) (header : String) :
    Except Err (Option String) :=
  (parseSortHeaderAccept header).map (fun ms => negotiateEntries ms sup)

/-- The per-element closure of `AcceptNegotiator::new`: strict `parse_mime`
plus the (redundant) `q` re-check, keeping the original value. -/
def parseSupportedCT (m : String) : Except Err SupEntry :=
  match parseMime m false with
  | .error e => .error e
  | .ok (main, sub, p) =>
    if paramsContains p "q" then .error .qualityNotAllowed
    else .ok (main, sub, p, m)

/-- `AcceptNegotiator::new`: all-or-nothing construction preserving order. -/
def acceptNew (l : List String) : Except Err (List SupEntry) :=
  mapE parseSupportedCT l

/-- Construction followed by negotiation (one pure function of the supported
list and the header). -/
def negotiateFull (l : List String) (header : String) :
    Except Err (Option String) :=
  (acceptNew l).bind (fun sup => acceptNegotiate sup header)

/-! ## Wildcard values and the shared match helper

The current-variant files under `src/` (`content_type.rs`, `encoding.rs`,
`language.rs`) use `MaybeWildcard` and `match_first` from a `lib.rs` revision
that is not part of the snapshot; both are modelled from the spec. -/

/-- Modelled from the spec: the `MaybeWildcard` / WildcardValue sum type
(missing from `src/`): `Specific(T)` or `Wildcard`, constructed from a raw
token by literal comparison with `"*"`; `Specific s` matches exactly `s`,
`Wildcard` matches anything. -/
inductive MaybeW where
  | wildcard
  | specific (s : String)
deriving DecidableEq, Repr

/-- Constructor by literal comparison with `"*"`. -/
def MaybeW.fromStr (s : String) : MaybeW :=
  if s = "*" then .wildcard else .specific s

/-- The compatibility test of a header-side wildcard value against a
supported token. -/
def MaybeW.matches : MaybeW → String → Bool
  | .wildcard, _ => true
  | .specific s, other => decide (s = other)

/-- Modelled from the spec: `match_first` (missing from `src/`): for each
header key in priority order, scan the supported `(key, value)` pairs in
registration order and return the first value whose predicate matches;
`none` when nothing matches. -/
def matchFirst (sup : List (α × τ)) (hs : List β) (pred : α → β → Bool) :
    Option τ :=
  hs.findSome? (fun h => (sup.find? (fun s => pred s.1 h)).map (·.2))

/-! ## Encoding negotiation (`src/encoding.rs`) -/

/-- `EncodingNegotiation::parse_elem`: no parameters, not the literal `*`. -/
def encParseElem (s : String) : Except Err String :=
  if strContainsChar s ';' then .error .paramsNotAllowed
  else if s = "*" then .error .invalidWildcard
  else .ok s

/-- The per-entry parser inside `EncodingNegotiation::parse_negotiate_header`:
trimmed `;`-segments, only a single `q` parameter permitted. -/
def encParseHeaderEntry (entry : String) : Except Err (MaybeW × F32) :=
  match (strSplit entry ';').map trimStr with
  | [] => .error .invalidHeader
  | mainS :: rest =>
    match rest with
    | [] => .ok (MaybeW.fromStr mainS, F32.one)
    | p1 :: rest2 =>
      match splitOnceChar p1 '=' with
      | none => .error .invalidHeader
      | some (k, v) =>
        if k ≠ "q" ∨ rest2 ≠ [] then .error .paramsNotAllowed
        else
          match parseF32 v with
          | some f => .ok (MaybeW.fromStr mainS, f)
          | none => .error .invalidQuality

/-- The sort comparator of the encoding negotiation: quality only. -/
def cmpEnc (a b : MaybeW × F32) : Ordering :=
  (totalCmp a.2 b.2).swap

/-- `EncodingNegotiation::parse_negotiate_header`: parse entries, sort by
descending quality, return the first match. -/
def encNegotiate (sup : List (String × String)) (header : String) :
    Except Err (Option String) :=
  (mapE encParseHeaderEntry (strSplit header ',')).map (fun ms =>
    matchFirst sup ((stableSortBy cmpEnc ms).map (·.1))
      (fun s h => h.matches s))

/-! ## Language negotiation (`src/language.rs`) -/

/-- `LanguageNegotiation::parse_elem`: no parameters, a `-` separator is
required. -/
def langParseElem (s : String) : Except Err (String × String) :=
  if strContainsChar s ';' then .error .paramsNotAllowed
  else
    match splitOnceChar s '-' with
    | none => .error (.missingSeparator '-')
    | some ms => .ok ms

/-- The value part of a language header entry: a tag without `-` becomes
`(primary, Wildcard)`. -/
def langParseValue (left : String) : String × MaybeW :=
  match splitOnceChar left '-' with
  | some (m, s) => (m, .specific s)
  | none => (left, .wildcard)

/-- The per-entry parser inside `LanguageNegotiation::parse_negotiate_header`:
note that only the FIRST `;`-parameter is examined; anything after it is
ignored. -/
def langParseHeaderEntry (entry : String) :
    Except Err ((String × MaybeW) × F32) :=
  match (strSplit entry ';').map trimStr with
  | [] => .error .invalidHeader
  | left :: rest =>
    match rest with
    | [] => .ok (langParseValue left, F32.one)
    | p1 :: _ =>
      match splitOnceChar p1 '=' with
      | none => .error .invalidHeader
      | some (k, v) =>
        if k ≠ "q" then .error .paramsNotAllowed
        else
          match parseF32 v with
          | some f => .ok (langParseValue left, f)
          | none => .error .invalidQuality

/-- `true` exactly on the wildcard. -/
def isWildcardB : MaybeW → Bool
  | .wildcard => true
  | .specific _ => false

/-- Rank of a `Bool` under Rust's `Ord` (`false < true`). -/
def boolRank (b : Bool) : Nat := cond b 1 0

/-- The language sort comparator: quality, then non-wildcard region first. -/
def cmpLang (a b : (String × MaybeW) × F32) : Ordering :=
  ((totalCmp a.2 b.2).then
    (cmpLin (boolRank (isWildcardB b.1.2)) (boolRank (isWildcardB a.1.2)))).swap

/-- `LanguageNegotiation::parse_negotiate_header`. -/
def langNegotiate (sup : List ((String × String) × String)) (header : String) :
    Except Err (Option String) :=
  (mapE langParseHeaderEntry (strSplit header ',')).map (fun ls =>
    matchFirst sup ((stableSortBy cmpLang ls).map (·.1))
      (fun s h => decide (s.1 = h.1) && h.2.matches s.2))

/-! ## The v1 draft (`src/accept/negotiator.rs`) -/

/-- Modelled from the spec: the Quality Scanner `quality` used by the draft
negotiators (missing from `src/`): locate a `q=<value>` parameter among the
`;`-separated, trimmed segments; `1.0` when absent; `InvalidQuality` when
present but unparseable; other or malformed parameters are ignored (the
legacy lenient design). -/
def qualityScan (entry : String) : Except Err F32 :=
  match (strSplit entry ';').map trimStr with
  | [] => .ok F32.one
  | _ :: ps =>
    match ps.findSome? (fun p =>
        match splitOnceChar p '=' with
        | some (k, v) => if k = "q" then some v else none
        | none => none) with
    | none => .ok F32.one
    | some v =>
      match parseF32 v with
      | some f => .ok f
      | none => .error .invalidQuality

/-- Supported entries of the v1/v2 drafts: `(value, main, sub)`. -/
abbrev DraftSup := String × String × String

/-- One step of the v1 loop (`Negotiator::negotiate` in
`src/accept/negotiator.rs`): skip the supported scan when the entry's
quality is strictly below the selected one (the IEEE partial `<`). -/
def v1Step (sup : List DraftSup) (selected : Option (String × F32))
    (entry : String) : Except Err (Option (String × F32)) :=
  match strSplit entry ';' with
  | [] => .error .invalidHeader
  | reqFull :: _ =>
    match splitOnceChar reqFull '/' with
    | none => .error (.missingSeparator '/')
    | some (reqMain, reqSub) =>
      if reqMain = "*" ∧ reqSub ≠ "*" then .error .invalidWildcard
      else
        (qualityScan entry).map (fun q =>
          match selected with
          | some (_, prevQ) =>
            if f32Lt q prevQ then selected
            else
              match sup.find? (fun t =>
                  matchesWildcard t.2.1 reqMain && matchesWildcard t.2.2 reqSub) with
              | some t => some (t.1, q)
              | none => selected
          | none =>
            match sup.find? (fun t =>
                matchesWildcard t.2.1 reqMain && matchesWildcard t.2.2 reqSub) with
            | some t => some (t.1, q)
            | none => selected)

/-- The v1 draft negotiation: one pass over the comma-split, trimmed entries,
tracking the best `(value, quality)` seen. -/
def v1Negotiate (sup : List DraftSup) (header : String) :
    Except Err (Option String) :=
  (List.foldlM (v1Step sup) none ((strSplit header ',').map trimStr)).map
    (Option.map Prod.fst)

/-! ## The v2 draft (`src/v2/accept.rs`) -/

/-- Modelled from the spec: `parse_mime_with_params` used by the v2 draft
(missing from `src/`): parse one header entry's value (the part before the
first `;`), split on `/` with the header-side wildcard rule; parameters are
tolerated. -/
def parseMimeWithParams (entry : String) : Except Err (String × String) :=
  match strSplit entry ';' with
  | [] => .error .invalidHeader
  | left :: _ =>
    match splitOnceChar (trimStr left) '/' with
    | none => .error (.missingSeparator '/')
    | some (m, s) =>
      if strContainsChar s '/' then .error .tooManyParts
      else if m = "*" ∧ s ≠ "*" then .error .invalidWildcard
      else .ok (m, s)

/-- One step of the v2 loop (`negotiate` in `src/v2/accept.rs`): like v1 but
skipping on `quality <= prev_quality` (the IEEE partial `<=`). -/
def v2Step (sup : List DraftSup) (selected : Option (String × F32))
    (entry : String) : Except Err (Option (String × F32)) :=
  match parseMimeWithParams entry with
  | .error e => .error e
  | .ok (reqMain, reqSub) =>
    (qualityScan entry).map (fun q =>
      match selected with
      | some (_, prevQ) =>
        if f32Le q prevQ then selected
        else
          match sup.find? (fun t =>
              matchesWildcard t.2.1 reqMain && matchesWildcard t.2.2 reqSub) with
          | some t => some (t.1, q)
          | none => selected
      | none =>
        match sup.find? (fun t =>
            matchesWildcard t.2.1 reqMain && matchesWildcard t.2.2 reqSub) with
        | some t => some (t.1, q)
        | none => selected)

/-- The v2 draft negotiation. -/
def v2Negotiate (sup : List DraftSup) (header : String) :
    Except Err (Option String) :=
  (List.foldlM (v2Step sup) none ((strSplit header ',').map trimStr)).map
    (Option.map Prod.fst)

/-! ## Derived notions used by the statements -/

/-- The composite priority key of a parsed header entry:
(`total_cmp` rank of the quality, precision score, parameter count). -/
def entryKey (e : HeaderEntry) : (Int × ℚ) × Nat × Nat :=
  (e.2.2.2.toKey, mimePrecisionScore e.1 e.2.1, e.2.2.1.length)

/-- Strict lexicographic order on composite priority keys. -/
def keyLtP (x y : (Int × ℚ) × Nat × Nat) : Prop :=
  x.1.1 < y.1.1 ∨ (x.1.1 = y.1.1 ∧
    (x.1.2 < y.1.2 ∨ (x.1.2 = y.1.2 ∧
      (x.2.1 < y.2.1 ∨ (x.2.1 = y.2.1 ∧ x.2.2 < y.2.2)))))

/-- `a` has priority at least that of `b`: its key is lexicographically
greater, or the two keys are equal. -/
def priorityGE (a b : HeaderEntry) : Prop :=
  keyLtP (entryKey b) (entryKey a) ∨ entryKey a = entryKey b

/-- First supported draft entry whose main and sub match the request parts
under the wildcard rule; shared description of all three variants on a
single-entry header. -/
def pickFirst (sup : List DraftSup) (m s : String) : Option String :=
  (sup.find? (fun t => matchesWildcard t.2.1 m && matchesWildcard t.2.2 s)).map
    (·.1)

/-- View a draft supported entry as a current-variant one (no parameters). -/
def supToCur (t : DraftSup) : SupEntry := (t.2.1, t.2.2, [], t.1)

/-- The value segment of a header entry: the part before the first `;` of the
trimmed entry, itself trimmed. -/
def valueSeg (entry : String) : String :=
  match strSplit (trimStr entry) ';' with
  | [] => ""
  | l :: _ => trimStr l

/-- Priority keys, repackaged into Mathlib's lexicographic product order. -/
def keyR (x : (Int × ℚ) × Nat × Nat) : (Int ×ₗ ℚ) ×ₗ Nat ×ₗ Nat :=
  toLex (toLex x.1, toLex x.2)

/-! ## General lemmas: `Ordering` algebra -/

theorem ordSwap_eq_gt (o : Ordering) : o.swap = .gt ↔ o = .lt := by
  cases o <;> simp [Ordering.swap]

theorem ordThen_eq_gt (o p : Ordering) :
    o.then p = .gt ↔ o = .gt ∨ (o = .eq ∧ p = .gt) := by
  cases o <;> simp [Ordering.then]

theorem ordThen_eq_lt (o p : Ordering) :
    o.then p = .lt ↔ o = .lt ∨ (o = .eq ∧ p = .lt) := by
  cases o <;> simp [Ordering.then]

theorem ordThen_eq_eq (o p : Ordering) :
    o.then p = .eq ↔ o = .eq ∧ p = .eq := by
  cases o <;> simp [Ordering.then]

theorem cmpLin_lt_iff {α : Type} [LinearOrder α] (a b : α) :
    cmpLin a b = .lt ↔ a < b := by
  unfold cmpLin
  split <;> rename_i h1
  · simp [h1]
  · split <;> rename_i h2
    · simp [h1, asymm h2]
    · simp [h1]

theorem cmpLin_gt_iff {α : Type} [LinearOrder α] (a b : α) :
    cmpLin a b = .gt ↔ b < a := by
  unfold cmpLin
  split <;> rename_i h1
  · simp [asymm h1]
  · split <;> rename_i h2 <;> simp [h2]

theorem cmpLin_eq_iff {α : Type} [LinearOrder α] (a b : α) :
    cmpLin a b = .eq ↔ a = b := by
  unfold cmpLin
  split <;> rename_i h1
  · simp [ne_of_lt h1]
  · split <;> rename_i h2
    · simp [(ne_of_lt h2).symm]
    · simp [le_antisymm (not_lt.mp h2) (not_lt.mp h1)]

/-! ## General lemmas: `total_cmp` and the composite priority key -/

theorem totalCmp_lt_iff (a b : F32) :
    totalCmp a b = .lt ↔
      a.toKey.1 < b.toKey.1 ∨ (a.toKey.1 = b.toKey.1 ∧ a.toKey.2 < b.toKey.2) := by
  simp [totalCmp, ordThen_eq_lt, cmpLin_lt_iff, cmpLin_eq_iff]

theorem totalCmp_gt_iff (a b : F32) :
    totalCmp a b = .gt ↔
      b.toKey.1 < a.toKey.1 ∨ (b.toKey.1 = a.toKey.1 ∧ b.toKey.2 < a.toKey.2) := by
  simp only [totalCmp, ordThen_eq_gt, cmpLin_gt_iff, cmpLin_eq_iff]
  constructor
  · rintro (h | ⟨h1, h2⟩)
    · exact .inl h
    · exact .inr ⟨h1.symm, h2⟩
  · rintro (h | ⟨h1, h2⟩)
    · exact .inl h
    · exact .inr ⟨h1.symm, h2⟩

theorem totalCmp_eq_iff (a b : F32) :
    totalCmp a b = .eq ↔ a.toKey = b.toKey := by
  simp [totalCmp, ordThen_eq_eq, cmpLin_eq_iff, Prod.ext_iff]

theorem keyLtP_iff_keyR (x y : (Int × ℚ) × Nat × Nat) :
    keyLtP x y ↔ keyR x < keyR y := by
  simp only [keyR, keyLtP, Prod.Lex.lt_iff, toLex_inj, Prod.ext_iff]
  tauto

theorem keyLtP_asymm {x y : (Int × ℚ) × Nat × Nat} (h : keyLtP x y) :
    ¬ keyLtP y x := by
  rw [keyLtP_iff_keyR] at *
  exact asymm h

theorem keyLtP_not_not_trans {x y z : (Int × ℚ) × Nat × Nat}
    (h1 : ¬ keyLtP x y) (h2 : ¬ keyLtP y z) : ¬ keyLtP x z := by
  rw [keyLtP_iff_keyR] at *
  exact not_lt.mpr (le_trans (not_lt.mp h2) (not_lt.mp h1))

theorem keyLtP_ne {x y : (Int × ℚ) × Nat × Nat} (h : keyLtP x y) : x ≠ y := by
  rintro rfl
  rw [keyLtP_iff_keyR] at h
  exact lt_irrefl _ h

/-- The comparator of `parse_sort_header` is `gt` exactly when the left
entry's composite key is lexicographically smaller. -/
theorem cmpAccept_gt_iff (a b : HeaderEntry) :
    cmpAccept a b = .gt ↔ keyLtP (entryKey a) (entryKey b) := by
  simp only [cmpAccept, ordSwap_eq_gt, ordThen_eq_lt, ordThen_eq_eq,
    totalCmp_lt_iff, totalCmp_eq_iff, cmpLin_lt_iff, cmpLin_eq_iff, keyLtP,
    entryKey, Prod.ext_iff]
  tauto

theorem cmpAccept_eq_iff (a b : HeaderEntry) :
    cmpAccept a b = .eq ↔ entryKey a = entryKey b := by
  have hsw : ∀ o : Ordering, o.swap = .eq ↔ o = .eq := by
    intro o; cases o <;> simp [Ordering.swap]
  simp only [cmpAccept, hsw, ordThen_eq_eq, totalCmp_eq_iff, cmpLin_eq_iff,
    entryKey, Prod.ext_iff]
  tauto

/-! ## General lemmas: the stable sort -/

theorem insertOrd_perm {α : Type} (c : α → α → Ordering) (x : α) (l : List α) :
    (insertOrd c x l).Perm (x :: l) := by
  induction l with
  | nil => exact .refl _
  | cons y ys ih =>
    simp only [insertOrd]
    split
    · exact (ih.cons y).trans (List.Perm.swap x y ys)
    · exact .refl _

theorem stableSortBy_perm {α : Type} (c : α → α → Ordering) (l : List α) :
    (stableSortBy c l).Perm l := by
  induction l with
  | nil => exact .refl _
  | cons z zs ih => exact (insertOrd_perm c z (stableSortBy c zs)).trans (ih.cons z)

theorem mem_insertOrd {α : Type} (c : α → α → Ordering) (x a : α) (l : List α) :
    a ∈ insertOrd c x l ↔ a = x ∨ a ∈ l := by
  rw [(insertOrd_perm c x l).mem_iff, List.mem_cons]

theorem insertOrd_pairwise {α : Type} (c : α → α → Ordering)
    (hA : ∀ a b, c a b = .gt → ¬ c b a = .gt)
    (hT : ∀ a b d, ¬ c a b = .gt → ¬ c b d = .gt → ¬ c a d = .gt)
    (x : α) (l : List α) (h : l.Pairwise (fun a b => ¬ c a b = .gt)) :
    (insertOrd c x l).Pairwise (fun a b => ¬ c a b = .gt) := by
  induction l with
  | nil => simp [insertOrd]
  | cons y ys ih =>
    rcases List.pairwise_cons.mp h with ⟨hy, hys⟩
    simp only [insertOrd]
    split <;> rename_i hxy
    · refine List.pairwise_cons.mpr ⟨?_, ih hys⟩
      intro a ha
      rcases (mem_insertOrd c x a ys).mp ha with rfl | ha
      · exact hA _ _ hxy
      · exact hy a ha
    · refine List.pairwise_cons.mpr ⟨?_, h⟩
      intro a ha
      rcases List.mem_cons.mp ha with rfl | ha
      · exact hxy
      · exact hT x y a hxy (hy a ha)

theorem stableSortBy_pairwise {α : Type} (c : α → α → Ordering)
    (hA : ∀ a b, c a b = .gt → ¬ c b a = .gt)
    (hT : ∀ a b d, ¬ c a b = .gt → ¬ c b d = .gt → ¬ c a d = .gt)
    (l : List α) :
    (stableSortBy c l).Pairwise (fun a b => ¬ c a b = .gt) := by
  induction l with
  | nil => simp [stableSortBy]
  | cons z zs ih => exact insertOrd_pairwise c hA hT z (stableSortBy c zs) ih

theorem insertOrd_filter {α κ : Type} [DecidableEq κ] (c : α → α → Ordering)
    (g : α → κ) (hg : ∀ a b, c a b = .gt → g a ≠ g b) (x : α) (l : List α)
    (K : κ) :
    (insertOrd c x l).filter (fun e => decide (g e = K)) =
      if g x = K then x :: l.filter (fun e => decide (g e = K))
      else l.filter (fun e => decide (g e = K)) := by
  induction l with
  | nil => by_cases h : g x = K <;> simp [insertOrd, List.filter_cons, h]
  | cons y ys ih =>
    simp only [insertOrd]
    split <;> rename_i hxy
    · have hne := hg x y hxy
      by_cases hyK : g y = K
      · have hxK : ¬ g x = K := fun h => hne (h.trans hyK.symm)
        simp [List.filter_cons, hyK, hxK, ih]
      · simp [List.filter_cons, hyK, ih]
    · by_cases hxK : g x = K <;> simp [List.filter_cons, hxK]

theorem stableSortBy_filter {α κ : Type} [DecidableEq κ] (c : α → α → Ordering)
    (g : α → κ) (hg : ∀ a b, c a b = .gt → g a ≠ g b) (l : List α) (K : κ) :
    (stableSortBy c l).filter (fun e => decide (g e = K)) =
      l.filter (fun e => decide (g e = K)) := by
  induction l with
  | nil => rfl
  | cons z zs ih =>
    have hfold : stableSortBy c (z :: zs) = insertOrd c z (stableSortBy c zs) := rfl
    rw [hfold, insertOrd_filter c g hg z (stableSortBy c zs) K,
      List.filter_cons]
    by_cases hzK : g z = K <;> simp [hzK, ih]

/-! ## General lemmas: result-collecting map -/

theorem mapE_error_append {α β : Type} (f : α → Except Err β) (pre : List α)
    (x : α) (post : List α) (e : Err)
    (hpre : ∀ y ∈ pre, ∃ r, f y = .ok r) (hx : f x = .error e) :
    mapE f (pre ++ x :: post) = .error e := by
  induction pre with
  | nil => simp [mapE, hx]
  | cons a as ih =>
    rcases hpre a (by simp) with ⟨r, hr⟩
    have := ih (fun y hy => hpre y (by simp [hy]))
    simp [mapE, hr, this, Except.map]

theorem mapE_ok_iff {α β : Type} (f : α → Except Err β) (l : List α)
    (r : List β) :
    mapE f l = .ok r ↔ List.Forall₂ (fun a b => f a = .ok b) l r := by
  induction l generalizing r with
  | nil =>
    cases r <;> simp [mapE, List.forall₂_nil_left_iff]
  | cons a as ih =>
    cases r with
    | nil =>
      simp only [List.forall₂_nil_right_iff]
      cases hfa : f a with
      | error e => simp [mapE, hfa]
      | ok y =>
        simp only [mapE, hfa]
        cases hmap : mapE f as <;> simp [hmap, Except.map]
    | cons b bs =>
      rw [List.forall₂_cons, ← ih bs]
      cases hfa : f a with
      | error e => simp [mapE, hfa]
      | ok y =>
        simp only [mapE, hfa]
        cases hmap : mapE f as <;> simp [hmap, Except.map]


theorem splitChar_ne_nil (c : Char) (cs : List Char) : splitChar c cs ≠ [] := by
  cases cs with
  | nil => simp [splitChar]
  | cons x xs =>
    simp only [splitChar]
    cases splitChar c xs with
    | nil => simp
    | cons g gs =>
      by_cases h : x = c <;> simp [h]

theorem strSplit_ne_nil (s : String) (c : Char) : strSplit s c ≠ [] := by
  simp only [strSplit, ne_eq, List.map_eq_nil_iff]
  exact splitChar_ne_nil c s.data

/-! ## Lemmas about the negotiation loops -/

theorem scanSupported_eq_find (sup : List SupEntry) (e : HeaderEntry) :
    scanSupported sup e = (sup.find? (fun s => isMatchCT s e)).map (·.2.2.2) := by
  induction sup with
  | nil => rfl
  | cons s rest ih =>
    simp only [scanSupported, List.find?]
    by_cases h : isMatchCT s e <;> simp [h, ih]

theorem negotiateEntries_eq_findSome (entries : List HeaderEntry)
    (sup : List SupEntry) :
    negotiateEntries entries sup =
      entries.findSome? (fun e =>
        (sup.find? (fun s => isMatchCT s e)).map (·.2.2.2)) := by
  induction entries with
  | nil => rfl
  | cons e rest ih =>
    simp only [negotiateEntries, List.findSome?, scanSupported_eq_find]
    cases (sup.find? (fun s => isMatchCT s e)).map (·.2.2.2) <;> simp [ih]

theorem ordSwap_eq_lt (o : Ordering) : o.swap = .lt ↔ o = .gt := by
  cases o <;> simp [Ordering.swap]

theorem ordThen_swap (o p : Ordering) : (o.then p).swap = o.swap.then p.swap := by
  cases o <;> simp [Ordering.then, Ordering.swap]

theorem cmpLin_swap {α : Type} [LinearOrder α] (a b : α) :
    cmpLin a b = (cmpLin b a).swap := by
  rcases lt_trichotomy a b with h | h | h
  · rw [(cmpLin_lt_iff a b).mpr h, (cmpLin_gt_iff b a).mpr h]; rfl
  · rw [(cmpLin_eq_iff a b).mpr h, (cmpLin_eq_iff b a).mpr h.symm]; rfl
  · rw [(cmpLin_gt_iff a b).mpr h, (cmpLin_lt_iff b a).mpr h]; rfl

theorem totalCmp_swap (a b : F32) : totalCmp a b = (totalCmp b a).swap := by
  rw [totalCmp, totalCmp, ordThen_swap, ← cmpLin_swap, ← cmpLin_swap]

theorem totalCmp_gt_iff_lex (a b : F32) :
    totalCmp a b = .gt ↔ toLex b.toKey < toLex a.toKey := by
  rw [totalCmp_gt_iff, Prod.Lex.lt_iff]

theorem cmpAccept_lt_iff (a b : HeaderEntry) :
    cmpAccept a b = .lt ↔ keyLtP (entryKey b) (entryKey a) := by
  simp only [cmpAccept, ordSwap_eq_lt, ordThen_eq_gt, ordThen_eq_eq,
    totalCmp_gt_iff, totalCmp_eq_iff, cmpLin_gt_iff, cmpLin_eq_iff, keyLtP,
    entryKey, Prod.ext_iff]
  tauto

theorem cmpAccept_not_gt (a b : HeaderEntry) (h : ¬ cmpAccept a b = .gt) :
    priorityGE a b := by
  cases hc : cmpAccept a b with
  | lt => exact .inl ((cmpAccept_lt_iff a b).mp hc)
  | eq => exact .inr ((cmpAccept_eq_iff a b).mp hc)
  | gt => exact absurd hc h

theorem parseParam_error (p : String) (e : Err)
    (h : parseParam p = .error e) : e = .invalidHeader := by
  simp only [parseParam] at h
  cases hso : splitOnceChar (trimStr p) '=' <;> rw [hso] at h <;> simp_all

theorem mapE_error_exists {α β : Type} (f : α → Except Err β) (l : List α)
    (e : Err) (h : mapE f l = .error e) : ∃ x ∈ l, f x = .error e := by
  induction l with
  | nil => cases h
  | cons a as ih =>
    simp only [mapE] at h
    split at h
    · rename_i e2 hfa
      cases h
      exact ⟨a, by simp, hfa⟩
    · rename_i y hfa
      cases hmap : mapE f as with
      | error e2 =>
        rw [hmap] at h
        simp only [Except.map] at h
        cases h
        obtain ⟨x, hx, hfx⟩ := ih hmap
        exact ⟨x, by simp [hx], hfx⟩
      | ok ys =>
        rw [hmap] at h
        simp [Except.map] at h

theorem mapE_parseParam_error (ps : List String) (e : Err)
    (h : mapE parseParam ps = .error e) : e = .invalidHeader := by
  obtain ⟨x, -, hx⟩ := mapE_error_exists parseParam ps e h
  exact parseParam_error x e hx

theorem paramsGet_erase (p : Params) (k : String) :
    paramsGet (paramsErase p k) k = none := by
  induction p with
  | nil => rfl
  | cons a rest ih =>
    by_cases h : a.1 = k <;>
      simp [paramsErase, paramsGet, List.find?, h] at ih ⊢

/-! ## Claim theorems -/

/-- Claim C1: for every negotiator and header string, `negotiate` parses and
sorts the header, then walks the sorted entries in priority order, scanning
the stored supported keys in registration order, and returns `Some` of the
first supported value whose matcher accepts the entry (short-circuiting both
loops); it returns `None` exactly when no sorted entry matches any supported
key; and for a `*/*` header (no discriminating preference) the first
registered (parameter-free) supported value is returned, in particular
`application/json` for supported `["application/json", "text/plain"]`. -/
theorem accept_negotiate_first_match :
    (∀ (sup : List SupEntry) (h : String),
      acceptNegotiate sup h = (parseSortHeaderAccept h).map (fun ms =>
        ms.findSome? (fun e =>
          (sup.find? (fun s => isMatchCT s e)).map (·.2.2.2)))) ∧
    (∀ (sup : List SupEntry) (h : String) (ms : List HeaderEntry),
      parseSortHeaderAccept h = .ok ms →
      (acceptNegotiate sup h = .ok none ↔
        ∀ e ∈ ms, ∀ s ∈ sup, ¬ isMatchCT s e)) ∧
    (∀ (sup : List SupEntry) (hne : sup ≠ []),
      (∀ s ∈ sup, s.2.2.1 = ([] : Params)) →
      acceptNegotiate sup "*/*" = .ok (some ((sup.head hne).2.2.2))) ∧
    negotiateFull ["application/json", "text/plain"] "*/*" =
      .ok (some "application/json") := by
  have key : ∀ (sup : List SupEntry) (h : String),
      acceptNegotiate sup h = (parseSortHeaderAccept h).map (fun ms =>
        ms.findSome? (fun e =>
          (sup.find? (fun s => isMatchCT s e)).map (·.2.2.2))) := by
    intro sup h
    unfold acceptNegotiate
    cases parseSortHeaderAccept h <;>
      simp [Except.map, negotiateEntries_eq_findSome]
  refine ⟨key, ?_, ?_, ?_⟩
  · intro sup h ms hms
    rw [key, hms]
    simp [Except.map, List.findSome?_eq_none_iff, Option.map_eq_none',
      List.find?_eq_none]
  · intro sup hne hparams
    have hsort : parseSortHeaderAccept "*/*" =
        .ok [("*", "*", ([] : Params), F32.one)] := by rfl
    cases sup with
    | nil => exact absurd rfl hne
    | cons s rest =>
      have hmatch : isMatchCT s ("*", "*", ([] : Params), F32.one) = true := by
        simp [isMatchCT, matchesWildcard, hparams s (by simp)]
      simp [acceptNegotiate, hsort, Except.map, negotiateEntries,
        scanSupported, hmatch, List.head]
  · rfl

/-- Witness for C1: a one-element parameter-free negotiator and the `*/*`
header return the first (only) registered value. -/
theorem accept_negotiate_first_match_witness :
    acceptNegotiate [("text", "plain", [], "text/plain")] "*/*" =
      .ok (some "text/plain") :=
  accept_negotiate_first_match.2.2.1 [("text", "plain", [], "text/plain")]
    (by simp) (by simp)

/-- Claim C2: for every media-type header whose entries all parse, the header
entry sorter returns the entries ordered descending by quality, then by
precision score, then by parameter count (`priorityGE` pairwise), as a
permutation of the parsed list, and entries equal on all three keys keep
their original header order (the filter at every fixed composite key is
unchanged — stability). -/
theorem parse_sort_header_ordering :
    ∀ (h : String) (l : List HeaderEntry),
      mapE parseHeaderEntryCT (strSplit h ',') = .ok l →
      parseSortHeaderAccept h = .ok (stableSortBy cmpAccept l) ∧
      (stableSortBy cmpAccept l).Perm l ∧
      (stableSortBy cmpAccept l).Pairwise priorityGE ∧
      (∀ K, (stableSortBy cmpAccept l).filter (fun e => decide (entryKey e = K)) =
        l.filter (fun e => decide (entryKey e = K))) := by
  intro h l hl
  have hA : ∀ a b, cmpAccept a b = .gt → ¬ cmpAccept b a = .gt := by
    intro a b hab hba
    exact keyLtP_asymm ((cmpAccept_gt_iff a b).mp hab)
      ((cmpAccept_gt_iff b a).mp hba)
  have hT : ∀ a b d, ¬ cmpAccept a b = .gt → ¬ cmpAccept b d = .gt →
      ¬ cmpAccept a d = .gt := by
    intro a b d hab hbd had
    exact keyLtP_not_not_trans
      (fun hk => hab ((cmpAccept_gt_iff a b).mpr hk))
      (fun hk => hbd ((cmpAccept_gt_iff b d).mpr hk))
      ((cmpAccept_gt_iff a d).mp had)
  refine ⟨?_, stableSortBy_perm cmpAccept l, ?_, ?_⟩
  · simp [parseSortHeaderAccept, hl, Except.map]
  · exact (stableSortBy_pairwise cmpAccept hA hT l).imp
      (fun {a b} hab => cmpAccept_not_gt a b hab)
  · intro K
    exact stableSortBy_filter cmpAccept entryKey
      (fun a b hab => keyLtP_ne ((cmpAccept_gt_iff a b).mp hab)) l K

/-- Witness for C2, on a concrete two-entry header. -/
theorem parse_sort_header_ordering_witness :
    parseSortHeaderAccept "a/b;q=0.5, c/d" =
      .ok (stableSortBy cmpAccept
        [("a", "b", [], F32.fin false (1/2)), ("c", "d", [], F32.one)]) :=
  (parse_sort_header_ordering "a/b;q=0.5, c/d"
    [("a", "b", [], F32.fin false (1/2)), ("c", "d", [], F32.one)]
    (by with_unfolding_all rfl)).1

/-- Claim C3: the media-type matcher succeeds iff the supported main equals
the header main or the header main is `*`, the same holds for the sub part,
and the supported parameter map equals the header entry's map exactly; and
every parsed header entry's parameter map has had `q` removed. -/
theorem content_type_matcher_iff :
    (∀ (s : SupEntry) (e : HeaderEntry),
      isMatchCT s e = true ↔
        ((s.1 = e.1 ∨ e.1 = "*") ∧ (s.2.1 = e.2.1 ∨ e.2.1 = "*") ∧
          s.2.2.1 = e.2.2.1)) ∧
    (∀ (m : String) (e : HeaderEntry), parseHeaderEntryCT m = .ok e →
      paramsGet e.2.2.1 "q" = none) := by
  constructor
  · intro s e
    simp [isMatchCT, matchesWildcard, and_assoc]
  · intro m e hme
    simp only [parseHeaderEntryCT] at hme
    cases hpm : parseMime (trimStr m) true with
    | error e2 => rw [hpm] at hme; cases hme
    | ok msp =>
      rw [hpm] at hme
      obtain ⟨main, sub, p⟩ := msp
      cases hq : paramsGet p "q" with
      | none =>
        simp only [extractQuality, hq] at hme
        cases hme
        simpa using hq
      | some v =>
        simp only [extractQuality, hq] at hme
        cases hv : parseF32 v with
        | none => rw [hv] at hme; cases hme
        | some f =>
          rw [hv] at hme
          cases hme
          simpa using paramsGet_erase p "q"

/-- Witness for C3: the parsed entry of `text/plain;q=0.5` is `q`-free. -/
theorem content_type_matcher_iff_witness :
    paramsGet (("text", "plain", ([] : Params),
      F32.fin false (1/2)) : HeaderEntry).2.2.1 "q" = none :=
  content_type_matcher_iff.2 "text/plain;q=0.5"
    ("text", "plain", [], F32.fin false (1/2)) (by with_unfolding_all rfl)

/-- Counterexample to C4 as stated: an encoding supported value carrying a
`q` parameter is rejected with `ParamsNotAllowed`, not `QualityNotAllowed`. -/
theorem encoding_quality_param_counterexample :
    encParseElem "gzip;q=1" = .error .paramsNotAllowed ∧
    encParseElem "gzip;q=1" ≠ .error .qualityNotAllowed := by
  constructor <;> decide

/-- Claim C4 (amended): supported-side media-type parsing yields
`InvalidWildcard` for a wildcard in either part (on an otherwise well-formed
value) and `QualityNotAllowed` for a present `q` parameter when no wildcard
precedes it; header-side parsing errors with `InvalidWildcard` exactly when
the main is `*` and the sub is not (so `a/*` and `*/*` are accepted), and
extracts `q` instead of rejecting it; encoding supported-side parsing
rejects any `;`-parameter — `q` included — with `ParamsNotAllowed`, and
yields `InvalidWildcard` exactly on the literal `*` otherwise. -/
theorem parse_supported_strict_header_lenient :
    (∀ (s left main sub : String) (ps : List String),
      strSplit s ';' = left :: ps →
      splitOnceChar (trimStr left) '/' = some (main, sub) →
      strContainsChar sub '/' = false →
      (main = "*" ∨ sub = "*") →
      parseMime s false = .error .invalidWildcard) ∧
    (∀ (s left main sub : String) (ps : List String)
        (pl : List (String × String)),
      strSplit s ';' = left :: ps →
      splitOnceChar (trimStr left) '/' = some (main, sub) →
      strContainsChar sub '/' = false →
      ¬(main = "*" ∨ sub = "*") →
      mapE parseParam ps = .ok pl →
      paramsContains (paramsOfList pl) "q" = true →
      parseMime s false = .error .qualityNotAllowed) ∧
    (∀ (s left main sub : String) (ps : List String),
      strSplit s ';' = left :: ps →
      splitOnceChar (trimStr left) '/' = some (main, sub) →
      strContainsChar sub '/' = false →
      (parseMime s true = .error .invalidWildcard ↔ (main = "*" ∧ sub ≠ "*"))) ∧
    (∀ (m main sub : String) (pmap : Params) (v : String) (f : F32),
      parseMime (trimStr m) true = .ok (main, sub, pmap) →
      paramsGet pmap "q" = some v →
      parseF32 v = some f →
      parseHeaderEntryCT m = .ok (main, sub, paramsErase pmap "q", f)) ∧
    (∀ s : String, strContainsChar s ';' = true →
      encParseElem s = .error .paramsNotAllowed) ∧
    (∀ s : String, strContainsChar s ';' = false →
      (encParseElem s = .error .invalidWildcard ↔ s = "*")) := by
  refine ⟨?_, ?_, ?_, ?_, ?_, ?_⟩
  · intro s left main sub ps hsp hso hco hw
    simp [parseMime, hsp, hso, hco, hw]
  · intro s left main sub ps pl hsp hso hco hw hpl hq
    push_neg at hw
    simp [parseMime, hsp, hso, hco, hw.1, hw.2, hpl, hq]
  · intro s left main sub ps hsp hso hco
    constructor
    · intro hin
      by_contra hw
      simp only [parseMime, hsp, hso, hco, Bool.false_eq_true, if_false,
        if_neg hw] at hin
      cases hpl : mapE parseParam ps with
      | error e2 =>
        rw [hpl] at hin
        simp [Except.map] at hin
        exact absurd (mapE_parseParam_error ps e2 hpl) (by rw [hin]; simp)
      | ok pl => rw [hpl] at hin; simp [Except.map] at hin
    · intro hw
      simp [parseMime, hsp, hso, hco, hw.1, hw.2]
  · intro m main sub pmap v f hpm hq hv
    simp [parseHeaderEntryCT, hpm, extractQuality, hq, hv]
  · intro s hs
    simp [encParseElem, hs]
  · intro s hs
    by_cases hw : s = "*"
    · subst hw
      simp [encParseElem, hs]
    · simp [encParseElem, hs, hw]

/-- Witness for C4 (amended): concrete instances of the strict and lenient
sides. -/
theorem parse_supported_strict_header_lenient_witness :
    parseMime "text/*" false = .error .invalidWildcard ∧
    (parseMime "*/plain" true = .error .invalidWildcard ↔
      ("*" = "*" ∧ "plain" ≠ "*")) ∧
    encParseElem "*" = .error .invalidWildcard :=
  ⟨parse_supported_strict_header_lenient.1 "text/*" "text/*" "text" "*"
      [] (by decide) (by decide) (by decide) (by decide),
    parse_supported_strict_header_lenient.2.2.1 "*/plain" "*/plain" "*" "plain"
      [] (by decide) (by decide) (by decide),
    (parse_supported_strict_header_lenient.2.2.2.2.2 "*" (by decide)).mpr rfl⟩

/-- Claim C5: the quality scanner returns `1.0` when no `q` parameter is
present in the entry's parsed parameter map, the parsed float when `q` is
present and parses, and `InvalidQuality` when `q` is present but does not
parse as a floating-point number; illustrated on whole header entries. -/
theorem extract_quality_cases :
    (∀ p : Params, paramsGet p "q" = none → extractQuality p = .ok (F32.one, p)) ∧
    (∀ (p : Params) (v : String) (f : F32),
      paramsGet p "q" = some v → parseF32 v = some f →
      extractQuality p = .ok (f, paramsErase p "q")) ∧
    (∀ (p : Params) (v : String),
      paramsGet p "q" = some v → parseF32 v = none →
      extractQuality p = .error .invalidQuality) ∧
    parseHeaderEntryCT "text/plain;q=0.5" =
      .ok ("text", "plain", [], F32.fin false (1/2)) ∧
    parseHeaderEntryCT "text/plain;q=abc" = .error .invalidQuality ∧
    parseHeaderEntryCT "text/plain" = .ok ("text", "plain", [], F32.one) := by
  refine ⟨?_, ?_, ?_, by with_unfolding_all rfl, by with_unfolding_all rfl,
    by with_unfolding_all rfl⟩
  · intro p hp
    simp [extractQuality, hp]
  · intro p v f hp hv
    simp [extractQuality, hp, hv]
  · intro p v hp hv
    simp [extractQuality, hp, hv]

/-- Witness for C5: concrete parameter maps for all three cases. -/
theorem extract_quality_cases_witness :
    extractQuality [("a", "1")] = .ok (F32.one, [("a", "1")]) ∧
    extractQuality [("q", "0.5")] =
      .ok (F32.fin false (1/2), paramsErase [("q", "0.5")] "q") ∧
    extractQuality [("q", "abc")] = .error .invalidQuality :=
  ⟨extract_quality_cases.1 [("a", "1")] (by decide),
    extract_quality_cases.2.1 [("q", "0.5")] "0.5" (F32.fin false (1/2))
      (by decide) (by with_unfolding_all rfl),
    extract_quality_cases.2.2.1 [("q", "abc")] "abc" (by decide) (by decide)⟩

/-- Claim C6: construction and negotiation are all-or-nothing: if any element
of the supported list fails to parse, `new` returns the first such error and
no negotiator is constructed (success means every element parsed, in order);
if any comma-separated header entry fails to parse (all earlier ones
succeeding), `negotiate` returns that error, with no partial match. -/
theorem construction_negotiation_atomic :
    (∀ (pre : List String) (x : String) (post : List String) (e : Err),
      (∀ y ∈ pre, ∃ r, parseSupportedCT y = .ok r) →
      parseSupportedCT x = .error e →
      acceptNew (pre ++ x :: post) = .error e) ∧
    (∀ (l : List String) (r : List SupEntry),
      acceptNew l = .ok r ↔
        List.Forall₂ (fun a b => parseSupportedCT a = .ok b) l r) ∧
    (∀ (sup : List SupEntry) (h : String) (pre : List String) (x : String)
        (post : List String) (e : Err),
      strSplit h ',' = pre ++ x :: post →
      (∀ y ∈ pre, ∃ r, parseHeaderEntryCT y = .ok r) →
      parseHeaderEntryCT x = .error e →
      acceptNegotiate sup h = .error e) := by
  refine ⟨?_, ?_, ?_⟩
  · intro pre x post e hpre hx
    exact mapE_error_append parseSupportedCT pre x post e hpre hx
  · intro l r
    exact mapE_ok_iff parseSupportedCT l r
  · intro sup h pre x post e hsplit hpre hx
    have hm := mapE_error_append parseHeaderEntryCT pre x post e hpre hx
    simp [acceptNegotiate, parseSortHeaderAccept, hsplit, hm, Except.map]

/-- Witness for C6: the malformed single-entry header `text` aborts
negotiation with `MissingSeparator`. -/
theorem construction_negotiation_atomic_witness :
    acceptNegotiate [] "text" = .error (.missingSeparator '/') :=
  construction_negotiation_atomic.2.2 [] "text" [] "text" []
    (Err.missingSeparator '/') (by decide) (by simp) (by decide)

/-- Counterexample to C7 as stated: a language header entry carrying the
parameter `foo=bar` after `q=1` is accepted (the parameter is silently
ignored), so the negotiate call does not return `ParamsNotAllowed`. -/
theorem language_extra_param_counterexample :
    langNegotiate [(("en", "US"), "en-US")] "en-US;q=1;foo=bar" =
      .ok (some "en-US") ∧
    langNegotiate [(("en", "US"), "en-US")] "en-US;q=1;foo=bar" ≠
      .error .paramsNotAllowed := by
  constructor
  · with_unfolding_all rfl
  · exact of_decide_eq_true (by with_unfolding_all rfl)

/-- Claim C7 (amended): for an encoding header entry, a well-formed first
parameter with key other than `q`, or any second parameter, aborts the whole
negotiate call with `ParamsNotAllowed`; for a language header entry only the
FIRST parameter is examined — a well-formed first parameter with key other
than `q` yields `ParamsNotAllowed`, but parameters after a first `q`
parameter are silently ignored; entry errors abort the whole negotiate call
for both kinds. -/
theorem nonq_param_rejection :
    (∀ (entry v0 p1 : String) (rest : List String) (k v : String),
      (strSplit entry ';').map trimStr = v0 :: p1 :: rest →
      splitOnceChar p1 '=' = some (k, v) →
      k ≠ "q" →
      encParseHeaderEntry entry = .error .paramsNotAllowed) ∧
    (∀ (entry v0 p1 : String) (rest : List String) (v : String),
      (strSplit entry ';').map trimStr = v0 :: p1 :: rest →
      splitOnceChar p1 '=' = some ("q", v) →
      rest ≠ [] →
      encParseHeaderEntry entry = .error .paramsNotAllowed) ∧
    (∀ (entry v0 p1 : String) (rest : List String) (k v : String),
      (strSplit entry ';').map trimStr = v0 :: p1 :: rest →
      splitOnceChar p1 '=' = some (k, v) →
      k ≠ "q" →
      langParseHeaderEntry entry = .error .paramsNotAllowed) ∧
    (∀ (entry v0 p1 : String) (rest : List String) (v : String) (f : F32),
      (strSplit entry ';').map trimStr = v0 :: p1 :: rest →
      splitOnceChar p1 '=' = some ("q", v) →
      parseF32 v = some f →
      langParseHeaderEntry entry = .ok (langParseValue v0, f)) ∧
    (∀ (sup : List (String × String)) (h : String) (pre : List String)
        (x : String) (post : List String) (e : Err),
      strSplit h ',' = pre ++ x :: post →
      (∀ y ∈ pre, ∃ r, encParseHeaderEntry y = .ok r) →
      encParseHeaderEntry x = .error e →
      encNegotiate sup h = .error e) ∧
    (∀ (sup : List ((String × String) × String)) (h : String)
        (pre : List String) (x : String) (post : List String) (e : Err),
      strSplit h ',' = pre ++ x :: post →
      (∀ y ∈ pre, ∃ r, langParseHeaderEntry y = .ok r) →
      langParseHeaderEntry x = .error e →
      langNegotiate sup h = .error e) := by
  refine ⟨?_, ?_, ?_, ?_, ?_, ?_⟩
  · intro entry v0 p1 rest k v hsp hso hk
    simp [encParseHeaderEntry, hsp, hso, hk]
  · intro entry v0 p1 rest v hsp hso hrest
    simp [encParseHeaderEntry, hsp, hso, hrest]
  · intro entry v0 p1 rest k v hsp hso hk
    simp [langParseHeaderEntry, hsp, hso, hk]
  · intro entry v0 p1 rest v f hsp hso hv
    simp [langParseHeaderEntry, hsp, hso, hv]
  · intro sup h pre x post e hsplit hpre hx
    have hm := mapE_error_append encParseHeaderEntry pre x post e hpre hx
    simp [encNegotiate, hsplit, hm, Except.map]
  · intro sup h pre x post e hsplit hpre hx
    have hm := mapE_error_append langParseHeaderEntry pre x post e hpre hx
    simp [langNegotiate, hsplit, hm, Except.map]

/-- Witness for C7 (amended): a language entry with a parameter after `q=1`
parses successfully, ignoring it; an encoding entry with a non-`q` parameter
is rejected. -/
theorem nonq_param_rejection_witness :
    langParseHeaderEntry "en-US;q=1;foo=bar" =
      .ok (langParseValue "en-US", F32.one) ∧
    encParseHeaderEntry "gzip;foo=bar" = .error .paramsNotAllowed :=
  ⟨nonq_param_rejection.2.2.2.1 "en-US;q=1;foo=bar" "en-US" "q=1" ["foo=bar"]
      "1" F32.one (by decide) (by decide) (by with_unfolding_all rfl),
    nonq_param_rejection.1 "gzip;foo=bar" "gzip" "foo=bar" [] "foo" "bar"
      (by decide) (by decide) (by decide)⟩

/-- Claim C8: negotiation is a pure, deterministic function of the supported
list and the header: repeating construction and negotiation yields identical
results; the quality comparator `total_cmp` used for sorting is reflexive,
antisymmetric under swap and transitive (a NaN-safe total ordering), so the
sort is well-defined on non-finite qualities, illustrated on a header whose
qualities are `nan` and `inf`. -/
theorem negotiation_deterministic :
    (∀ (l : List String) (h : String), negotiateFull l h = negotiateFull l h) ∧
    (∀ a : F32, totalCmp a a = .eq) ∧
    (∀ a b : F32, totalCmp a b = (totalCmp b a).swap) ∧
    (∀ a b d : F32, totalCmp a b ≠ .gt → totalCmp b d ≠ .gt →
      totalCmp a d ≠ .gt) ∧
    negotiateFull ["a/b", "c/d"] "a/b;q=nan, c/d;q=inf" = .ok (some "a/b") := by
  refine ⟨fun l h => rfl, ?_, totalCmp_swap, ?_, by with_unfolding_all rfl⟩
  · intro a
    exact (totalCmp_eq_iff a a).mpr rfl
  · intro a b d hab hbd had
    have h1 : toLex a.toKey ≤ toLex b.toKey :=
      not_lt.mp (fun hk => hab ((totalCmp_gt_iff_lex a b).mpr hk))
    have h2 : toLex b.toKey ≤ toLex d.toKey :=
      not_lt.mp (fun hk => hbd ((totalCmp_gt_iff_lex b d).mpr hk))
    exact not_lt.mpr (le_trans h1 h2) ((totalCmp_gt_iff_lex a d).mp had)

/-- Witness for C8: the transitivity conjunct at concrete qualities. -/
theorem negotiation_deterministic_witness :
    totalCmp (F32.fin false (1/2)) (F32.inf false) ≠ .gt :=
  negotiation_deterministic.2.2.2.1 (F32.fin false (1/2)) F32.one (F32.inf false)
    (of_decide_eq_true (by with_unfolding_all rfl))
    (of_decide_eq_true (by with_unfolding_all rfl))

/-- Counterexample to C9 as stated: on supported
`["application/json", "text/plain"]` and header
`"text/plain, application/json"` the v1 draft returns `application/json`
while the current sort-then-scan variant returns `text/plain`; on supported
`["text/plain", "text/html"]` and header `"*/*, text/html"` the v2 draft
returns `text/plain` while the current variant returns `text/html` — both
negotiations succeed on both variants yet select different values. -/
theorem draft_current_divergence_counterexample :
    v1Negotiate [("application/json", "application", "json"),
        ("text/plain", "text", "plain")] "text/plain, application/json" =
      .ok (some "application/json") ∧
    acceptNegotiate [("application", "json", [], "application/json"),
        ("text", "plain", [], "text/plain")] "text/plain, application/json" =
      .ok (some "text/plain") ∧
    v2Negotiate [("text/plain", "text", "plain"), ("text/html", "text", "html")]
        "*/*, text/html" = .ok (some "text/plain") ∧
    acceptNegotiate [("text", "plain", [], "text/plain"),
        ("text", "html", [], "text/html")] "*/*, text/html" =
      .ok (some "text/html") ∧
    (Except.ok (some "application/json") : Except Err (Option String)) ≠
      .ok (some "text/plain") := by
  refine ⟨?_, ?_, ?_, ?_, ?_⟩
  · with_unfolding_all rfl
  · with_unfolding_all rfl
  · with_unfolding_all rfl
  · with_unfolding_all rfl
  · exact of_decide_eq_true (by with_unfolding_all rfl)

/-- Claim C9 (amended): the draft and current algorithms agree on
single-entry headers: for a trimmed header with no `,` and no `;` whose
value splits into valid `main/sub` parts, v1, v2 and the current variant
all return the first supported entry whose main and sub match under the
wildcard rule. -/
theorem single_entry_draft_equivalence :
    ∀ (sup : List DraftSup) (h m s : String),
      trimStr h = h →
      strSplit h ',' = [h] →
      strSplit h ';' = [h] →
      splitOnceChar h '/' = some (m, s) →
      strContainsChar s '/' = false →
      (m = "*" → s = "*") →
      v1Negotiate sup h = .ok (pickFirst sup m s) ∧
      v2Negotiate sup h = .ok (pickFirst sup m s) ∧
      acceptNegotiate (sup.map supToCur) h = .ok (pickFirst sup m s) := by
  intro sup h m s htrim hc1 hc2 hso hcont hwild
  have hwild2 : ¬ (m = "*" ∧ s ≠ "*") := fun hmw => hmw.2 (hwild hmw.1)
  have hentries : (strSplit h ',').map trimStr = [h] := by
    rw [hc1]
    simp [htrim]
  have hq : qualityScan h = .ok F32.one := by
    simp [qualityScan, hc2, htrim]
  have hmap : ∀ q : F32,
      (match sup.find? (fun t =>
          matchesWildcard t.2.1 m && matchesWildcard t.2.2 s) with
        | some t => some (t.1, q)
        | none => (none : Option (String × F32))) =
        (pickFirst sup m s).map (fun v => (v, q)) := by
    intro q
    cases hf : sup.find? (fun t =>
        matchesWildcard t.2.1 m && matchesWildcard t.2.2 s) <;>
      simp [pickFirst, hf]
  refine ⟨?_, ?_, ?_⟩
  · have hstep : v1Step sup none h =
        .ok ((pickFirst sup m s).map (fun v => (v, F32.one))) := by
      simp only [v1Step, hc2, hso]
      rw [if_neg hwild2, hq]
      simp only [Except.map]
      rw [hmap F32.one]
    simp only [v1Negotiate, hentries, List.foldlM, hstep]
    cases hf : pickFirst sup m s <;> simp [hf, Except.map]
  · have hpm : parseMimeWithParams h = .ok (m, s) := by
      simp [parseMimeWithParams, hc2, htrim, hso, hcont, hwild2]
    have hstep : v2Step sup none h =
        .ok ((pickFirst sup m s).map (fun v => (v, F32.one))) := by
      simp only [v2Step, hpm, hq]
      simp only [Except.map]
      rw [hmap F32.one]
    simp only [v2Negotiate, hentries, List.foldlM, hstep]
    cases hf : pickFirst sup m s <;> simp [hf, Except.map]
  · have hentry : parseHeaderEntryCT h = .ok (m, s, [], F32.one) := by
      simp only [parseHeaderEntryCT, parseMime, htrim, hc2, hso, hcont]
      rw [if_neg hwild2]
      simp [mapE, Except.map, extractQuality, paramsOfList, paramsGet]
    have hsort : parseSortHeaderAccept h = .ok [(m, s, [], F32.one)] := by
      simp [parseSortHeaderAccept, hc1, mapE, hentry, Except.map, stableSortBy,
        insertOrd]
    have hpred : (fun t => isMatchCT (supToCur t) (m, s, [], F32.one)) =
        (fun t : DraftSup =>
          matchesWildcard t.2.1 m && matchesWildcard t.2.2 s) := by
      funext t
      simp [isMatchCT, supToCur]
    simp only [acceptNegotiate, hsort, Except.map, negotiateEntries,
      scanSupported_eq_find, List.find?_map]
    rw [show ((fun st : SupEntry => isMatchCT st (m, s, [], F32.one)) ∘ supToCur) =
      (fun t : DraftSup => matchesWildcard t.2.1 m && matchesWildcard t.2.2 s)
      from hpred]
    cases hf : sup.find? (fun t =>
        matchesWildcard t.2.1 m && matchesWildcard t.2.2 s) <;>
      simp [pickFirst, hf, supToCur]

/-- Witness for C9 (amended): all three variants pick `text/html` for the
single-entry header `text/*`. -/
theorem single_entry_draft_equivalence_witness :
    v1Negotiate [("text/html", "text", "html")] "text/*" =
      .ok (pickFirst [("text/html", "text", "html")] "text" "*") ∧
    v2Negotiate [("text/html", "text", "html")] "text/*" =
      .ok (pickFirst [("text/html", "text", "html")] "text" "*") ∧
    acceptNegotiate ([("text/html", "text", "html")].map supToCur) "text/*" =
      .ok (pickFirst [("text/html", "text", "html")] "text" "*") :=
  single_entry_draft_equivalence [("text/html", "text", "html")] "text/*"
    "text" "*" (by decide) (by decide) (by decide) (by decide) (by decide)
    (by decide)

/-- Counterexample to C10 as stated: a header whose comma-split contains an
entry with no `/` (`nope`) but whose earlier entry fails differently makes
`negotiate` return that earlier error (`TooManyParts`), not
`MissingSeparator`. -/
theorem missing_separator_precedence_counterexample :
    acceptNegotiate [("text", "plain", [], "text/plain")]
      "text/plain/x, nope" = .error .tooManyParts ∧
    acceptNegotiate [("text", "plain", [], "text/plain")]
      "text/plain/x, nope" ≠ .error (.missingSeparator '/') := by
  constructor
  · decide
  · decide

/-- Claim C10 (amended): for every media-type negotiator, the empty header is
one malformed entry: `negotiate ""` returns `MissingSeparator` rather than
`Ok(None)`; more generally, whenever the first failing comma-separated entry
of a header has no `/` in its value segment (all earlier entries parsing
successfully), `negotiate` returns `MissingSeparator`. -/
theorem empty_header_missing_separator :
    (∀ sup : List SupEntry,
      acceptNegotiate sup "" = .error (.missingSeparator '/')) ∧
    (∀ (sup : List SupEntry) (h : String) (pre : List String) (x : String)
        (post : List String),
      strSplit h ',' = pre ++ x :: post →
      (∀ y ∈ pre, ∃ r, parseHeaderEntryCT y = .ok r) →
      splitOnceChar (valueSeg x) '/' = none →
      acceptNegotiate sup h = .error (.missingSeparator '/')) := by
  have hentry : ∀ x : String, splitOnceChar (valueSeg x) '/' = none →
      parseHeaderEntryCT x = .error (.missingSeparator '/') := by
    intro x hval
    cases hsp : strSplit (trimStr x) ';' with
    | nil => exact absurd hsp (strSplit_ne_nil (trimStr x) ';')
    | cons l ps =>
      rw [valueSeg, hsp] at hval
      simp [parseHeaderEntryCT, parseMime, hsp, hval]
  constructor
  · intro sup
    have h0 : parseSortHeaderAccept "" = .error (.missingSeparator '/') := by
      have := hentry "" (by decide)
      simp [parseSortHeaderAccept, mapE, this, Except.map,
        show strSplit "" ',' = [""] from rfl]
    simp [acceptNegotiate, h0, Except.map]
  · intro sup h pre x post hsplit hpre hval
    have hm := mapE_error_append parseHeaderEntryCT pre x post
      (.missingSeparator '/') hpre (hentry x hval)
    simp [acceptNegotiate, parseSortHeaderAccept, hsplit, hm, Except.map]

/-- Witness for C10 (amended): the single-entry header `nope` (no `/`)
yields `MissingSeparator`. -/
theorem empty_header_missing_separator_witness :
    acceptNegotiate [] "nope" = .error (.missingSeparator '/') :=
  empty_header_missing_separator.2 [] "nope" [] "nope" []
    (by decide) (by simp) (by decide)

end HttpNeg
